import Mathlib

/-!
Verification of the data-loading pipeline of `medaka/prediction.py`.

The development is a shallow embedding of the pipeline: the pure content of
each Python function is translated into a Lean function, the thread scheduler
is modelled by an explicit `Interleaving` relation on the per-worker queue
traffic, and the Python standard-library queue blocking rule is embedded as a
small arithmetic predicate.
-/

namespace MedakaPrediction

/-- A genomic region request (reference name, start, end).  Its fields are
opaque to the pipeline; they only serve as identity. -/
structure Region where
  rname : Nat
  rstart : Nat
  rend : Nat
deriving DecidableEq

/-- A numpy-style n-dimensional array: a shape together with the row-major
flattened data.  A well-formed array has `data.length = shape.prod`. -/
structure NDArray (α : Type) where
  shape : List Nat
  data : List α
deriving DecidableEq

/-- `t[i]` for an array `t` of shape `n :: s`: the `i`-th slice along the
leading axis, i.e. the row-major segment of length `s.prod` starting at
`i * s.prod`.  A zero-dimensional array has no slices and is returned as is
(never reached by the pipeline). -/
def NDArray.slice {α} (t : NDArray α) (i : Nat) : NDArray α :=
  match t.shape with
  | [] => t
  | _ :: s => ⟨s, (t.data.drop (i * s.prod)).take s.prod⟩

/-- `np.stack`: concatenate the given arrays along a new leading axis.  For a
list of `k` arrays of common shape `s` the result has shape `k :: s` and its
row-major data is the concatenation of the inputs' data. -/
def npStack {α} (ts : List (NDArray α)) : NDArray α :=
  ⟨ts.length :: (match ts with | [] => [] | t :: _ => t.shape),
   (ts.map NDArray.data).flatten⟩

/-- A `medaka.common.Sample` as the pipeline sees it: positional identity
(originating region and position metadata) plus a feature matrix. -/
structure Sample (α : Type) where
  region : Region
  pos : Nat
  features : NDArray α
deriving DecidableEq

/-- `Sample.amend(features=...)`: rebuild the sample with a new feature
reference, all other fields unchanged. -/
def Sample.amend {α} (s : Sample α) (f : NDArray α) : Sample α :=
  { s with features := f }

/-- The feature-independent identity of a sample (used to compare sample
streams across the feature rebinding done by the batch worker). -/
def Sample.key {α} (s : Sample α) : Region × Nat :=
  (s.region, s.pos)

/-- An element travelling on the sample queue: either a real sample or the
`StopIteration` sentinel a worker posts when the region intake is empty. -/
inductive Item (α : Type) where
  | sample (s : Sample α)
  | stop
deriving DecidableEq

/-- Whether a queue item is the `StopIteration` sentinel. -/
def isStop {α} : Item α → Bool
  | .stop => true
  | .sample _ => false

/-- Extract the sample carried by a queue item, if any. -/
def sampleOf {α} : Item α → Option (Sample α)
  | .stop => none
  | .sample s => some s

/-- `queue.Queue(maxsize).put` blocking rule of the Python standard library:
a put blocks exactly when `maxsize` is positive and the queue already holds
at least `maxsize` items; if `maxsize <= 0` the queue is infinite and a put
never blocks. -/
def pyQueuePutBlocks (maxsize : Int) (qsize : Nat) : Bool :=
  decide (0 < maxsize) && decide (maxsize ≤ (qsize : Int))

namespace DataLoader

/-- `DataLoader.__init__`: `sample_cache_size = batch_cache_size * batch_size`,
the capacity of the sample queue `self._samples`. -/
def init_sample_cache_size (batch_cache_size batch_size : Nat) : Nat :=
  batch_cache_size * batch_size

/-- `DataLoader.__init__`: after `batch_cache_size = 0  # batch things ASAP`
the batch queue is created as `queue.Queue(maxsize=0)`. -/
def init_batch_queue_maxsize : Int := 0

/-- `DataLoader._region_worker`, given the outcome of
`SampleGenerator` (`gen r = (samples, quarantined)`) and the sequence of
regions this worker wins from the intake queue: it pushes every sample of
every region it processes, accumulates the quarantined remainders, and once
the intake is observed empty pushes the `StopIteration` sentinel and exits.
Returns (items pushed to the sample queue, remainders recorded). -/
def _region_worker {α τ : Type} (gen : Region → List (Sample α) × List τ) :
    List Region → List (Item α) × List τ
  | [] => ([Item.stop], [])
  | r :: rs =>
    let res := gen r
    let rest := _region_worker gen rs
    (res.1.map Item.sample ++ rest.1, res.2 ++ rest.2)

/-- `DataLoader._region_worker` with a fallible sample generator.  The loop
body has no exception handler: when `gen` raises, the exception propagates
out of the worker, which therefore stops pushing and never reaches the
sentinel-posting branch. -/
def _region_worker_exc {α τ ε : Type}
    (gen : Region → Except ε (List (Sample α) × List τ)) :
    List Region → List (Item α) × List τ
  | [] => ([Item.stop], [])
  | r :: rs =>
    match gen r with
    | .error _ => ([], [])
    | .ok res =>
      let rest := _region_worker_exc gen rs
      (res.1.map Item.sample ++ rest.1, res.2 ++ rest.2)

/-- Loop body of `DataLoader._get_samples`: `nstops` counts the sentinels
popped so far; a sentinel making the count reach `N` (= `self.bam_workers`)
ends the iteration, any other item is yielded. -/
def _get_samples_aux {α} (N : Nat) : Nat → List (Item α) → List (Sample α)
  | _, [] => []
  | nstops, Item.stop :: rest =>
    if nstops + 1 = N then [] else _get_samples_aux N (nstops + 1) rest
  | nstops, Item.sample s :: rest => s :: _get_samples_aux N nstops rest

/-- `DataLoader._get_samples` applied to the merged sample-queue traffic:
yield items until `N` sentinels have been popped. -/
def _get_samples {α} (N : Nat) (stream : List (Item α)) : List (Sample α) :=
  _get_samples_aux N 0 stream

/-- Modelled from the spec: `medaka.common.grouper` is not among the sources;
per the spec it accumulates consecutive samples (arrival order) into groups
of exactly `batch_size`, emits a group once full and, at stream end, emits
any partial group as a shorter final group — no padding, no dropped
samples. -/
def grouper {α} (n : Nat) (xs : List α) : List (List α) :=
  match xs with
  | [] => []
  | x :: rest =>
    if h : n = 0 then []
    else (x :: rest).take n :: grouper n ((x :: rest).drop n)
termination_by xs.length
decreasing_by
  have h2 : 0 < n := Nat.pos_of_ne_zero h
  calc ((x :: rest).drop n).length = (x :: rest).length - n :=
        List.length_drop n (x :: rest)
    _ < (x :: rest).length := Nat.sub_lt (Nat.succ_pos _) h2

/-- Body of the loop in `DataLoader._batch_worker` for one group `g`:
`batch = np.stack([x.features for x in data])`, then
`data = [sample.amend(features=feat) for feat, sample in zip(batch, data)]`
(iterating a stacked array yields its slices along the leading axis, so
`zip(batch, data)` pairs slice `i` with sample `i`); the pair
`(data, batch)` is what gets pushed to the batch queue. -/
def mkBatch {α} (g : List (Sample α)) : List (Sample α) × NDArray α :=
  let batch := npStack (g.map Sample.features)
  (List.zipWith (fun feat sample => sample.amend feat)
    ((List.range g.length).map batch.slice) g,
   batch)

/-- The batches built by `DataLoader._batch_worker` from the stream produced
by `_get_samples`: group into `batch_size`-sized groups and stack each. -/
def _batch_worker_batches {α} (batch_size : Nat) (stream : List (Sample α)) :
    List (List (Sample α) × NDArray α) :=
  (grouper batch_size stream).map mkBatch

/-- An element travelling on the batch queue: a finished batch, or the final
`StopIteration` pushed by `_batch_worker` after its loop ends. -/
inductive BQItem (α : Type) where
  | batch (data : List (Sample α)) (arr : NDArray α)
  | stop

/-- Everything `DataLoader._batch_worker` pushes to the batch queue: every
finished batch in order, then exactly one `StopIteration`. -/
def _batch_worker_queue {α} (batch_size : Nat) (stream : List (Sample α)) :
    List (BQItem α) :=
  (_batch_worker_batches batch_size stream).map (fun b => BQItem.batch b.1 b.2)
    ++ [BQItem.stop]

/-- Iterating the loader (`DataLoader.__next__` until it raises
`StopIteration`): batches are returned in queue order; the first
`StopIteration` on the batch queue ends the iteration. -/
def nextBatches {α} : List (BQItem α) → List (List (Sample α) × NDArray α)
  | [] => []
  | BQItem.stop :: _ => []
  | BQItem.batch d a :: rest => (d, a) :: nextBatches rest

end DataLoader

/-- The keyword arguments `run_prediction` hands to the `DataLoader`
constructor. -/
structure DataLoaderArgs where
  batch_size : Nat
  batch_cache_size : Nat
  bam_workers : Nat
deriving DecidableEq

/-- The `DataLoader(...)` call in `run_prediction`: it forwards `batch_size`
but passes the literals `batch_cache_size=8` and `bam_workers=2`, ignoring
its own `bam_workers` parameter. -/
def run_prediction_loader_args (batch_size bam_workers : Nat) : DataLoaderArgs :=
  ⟨batch_size, 8, 2⟩

/-- `DataLoader.__init__` starts one `_region_worker` thread per unit of its
`bam_workers` argument (`for i in range(bam_workers)`). -/
def workers_started (a : DataLoaderArgs) : Nat := a.bam_workers

/-- The sample-queue capacity `DataLoader.__init__` computes from its
arguments. -/
def sample_queue_maxsize (a : DataLoaderArgs) : Nat :=
  DataLoader.init_sample_cache_size a.batch_cache_size a.batch_size

/-- `predict`: `if args.threads > 2: args.threads = 2`. -/
def predict_effective_threads (threads : Nat) : Nat :=
  if 2 < threads then 2 else threads

/-- `predict`: `os.environ["TF_NUM_INTEROP_THREADS"] = str(args.threads)`,
executed after the reduction above. -/
def tf_num_interop_threads (threads : Nat) : Nat :=
  predict_effective_threads threads

/-- An arbitrary interleaving of several streams: `Interleaving ls xs` holds
when `xs` is obtained by merging the lists in `ls`, preserving the internal
order of each one.  This models the unconstrained thread scheduler merging
the workers' queue traffic. -/
inductive Interleaving {γ : Type} : List (List γ) → List γ → Prop where
  | nil : ∀ ls : List (List γ), (∀ l ∈ ls, l = []) → Interleaving ls []
  | cons : ∀ (ls₁ : List (List γ)) (x : γ) (l : List γ) (ls₂ : List (List γ))
      (xs : List γ), Interleaving (ls₁ ++ l :: ls₂) xs →
      Interleaving (ls₁ ++ (x :: l) :: ls₂) (x :: xs)

/-! ### Generic facts about interleavings -/

/-- An interleaving is a permutation of the concatenation of its
constituents. -/
theorem Interleaving.perm_flatten {γ : Type} {ls : List (List γ)} {xs : List γ}
    (h : Interleaving ls xs) : xs.Perm ls.flatten := by
  induction h with
  | nil ls hls =>
    rw [List.flatten_eq_nil_iff.mpr hls]
  | cons ls₁ x l ls₂ xs hsub ih =>
    have h1 : (ls₁ ++ (x :: l) :: ls₂).flatten
        = ls₁.flatten ++ x :: (l ++ ls₂.flatten) := by
      simp [List.flatten_append]
    have h2 : (ls₁ ++ l :: ls₂).flatten = ls₁.flatten ++ (l ++ ls₂.flatten) := by
      simp [List.flatten_append]
    rw [h1]
    refine List.Perm.trans (List.Perm.cons x ?_) List.perm_middle.symm
    rw [← h2]
    exact ih

/-- Each constituent of an interleaving is a subsequence of the merged
stream. -/
theorem Interleaving.sublist_of_mem {γ : Type} {ls : List (List γ)}
    {xs : List γ} (h : Interleaving ls xs) :
    ∀ l ∈ ls, l.Sublist xs := by
  induction h with
  | nil ls hls =>
    intro l hl
    rw [hls l hl]
  | cons ls₁ x m ls₂ xs hsub ih =>
    intro l hl
    rcases List.mem_append.1 hl with h1 | h2
    · exact List.Sublist.cons x (ih l (List.mem_append.2 (Or.inl h1)))
    · rcases List.mem_cons.1 h2 with rfl | h3
      · exact List.Sublist.cons₂ x
          (ih m (List.mem_append.2 (Or.inr (List.mem_cons_self m ls₂))))
      · exact List.Sublist.cons x
          (ih l (List.mem_append.2 (Or.inr (List.mem_cons_of_mem _ h3))))

/-- Filtering every constituent and the merged stream with the same predicate
preserves the interleaving. -/
theorem Interleaving.filter {γ : Type} (p : γ → Bool) {ls : List (List γ)}
    {xs : List γ} (h : Interleaving ls xs) :
    Interleaving (ls.map (List.filter p)) (xs.filter p) := by
  induction h with
  | nil ls hls =>
    simp only [List.filter_nil]
    refine Interleaving.nil _ ?_
    intro l hl
    rcases List.mem_map.1 hl with ⟨m, hm, rfl⟩
    rw [hls m hm]
    rfl
  | cons ls₁ x l ls₂ xs hsub ih =>
    simp only [List.map_append, List.map_cons, List.filter_cons] at ih ⊢
    by_cases hx : p x = true
    · simp only [if_pos hx]
      exact Interleaving.cons _ x _ _ _ ih
    · simp only [if_neg hx]
      exact ih

/-- An interleaving in which all constituents but one are empty is that one
constituent. -/
theorem Interleaving.eq_of_single {γ : Type} {L₁ L₂ : List (List γ)}
    {l₀ : List γ} {xs : List γ} (h : Interleaving (L₁ ++ l₀ :: L₂) xs)
    (h₁ : ∀ l ∈ L₁, l = []) (h₂ : ∀ l ∈ L₂, l = []) : xs = l₀ := by
  have hperm : xs.Perm (L₁ ++ l₀ :: L₂).flatten := h.perm_flatten
  have hflat : (L₁ ++ l₀ :: L₂).flatten = l₀ := by
    simp only [List.flatten_append, List.flatten_cons,
      List.flatten_eq_nil_iff.mpr h₁, List.flatten_eq_nil_iff.mpr h₂]
    simp
  rw [hflat] at hperm
  have hsub : l₀.Sublist xs :=
    h.sublist_of_mem l₀ (List.mem_append.2 (Or.inr (List.mem_cons_self _ _)))
  exact (List.Sublist.eq_of_length hsub hperm.length_eq.symm).symm

/-! ### Structure of a worker's queue traffic -/

namespace DataLoader

/-- A region worker pushes the samples of the regions it wins, in order,
followed by exactly one sentinel. -/
theorem _region_worker_items_eq {α τ : Type}
    (gen : Region → List (Sample α) × List τ) (taken : List Region) :
    (_region_worker gen taken).1
      = ((taken.map (fun r => (gen r).1)).flatten).map Item.sample
          ++ [Item.stop] := by
  induction taken with
  | nil => rfl
  | cons r rs ih =>
    simp [_region_worker, ih, List.flatten_cons, List.map_append]

/-- A region worker records exactly the remainders of the regions it wins,
in order. -/
theorem _region_worker_rems_eq {α τ : Type}
    (gen : Region → List (Sample α) × List τ) (taken : List Region) :
    (_region_worker gen taken).2 = (taken.map (fun r => (gen r).2)).flatten := by
  induction taken with
  | nil => rfl
  | cons r rs ih =>
    simp [_region_worker, ih, List.flatten_cons]

/-- The samples travelling in a worker's traffic are exactly the samples of
its regions, in order. -/
theorem _region_worker_samples_eq {α τ : Type}
    (gen : Region → List (Sample α) × List τ) (taken : List Region) :
    ((_region_worker gen taken).1).filterMap sampleOf
      = (taken.map (fun r => (gen r).1)).flatten := by
  rw [_region_worker_items_eq, List.filterMap_append, List.filterMap_map]
  have h1 : (sampleOf (α := α)) ∘ Item.sample = some := rfl
  rw [h1, List.filterMap_some]
  simp [sampleOf]

/-- A worker's traffic carries exactly one sentinel. -/
theorem _region_worker_countP_stop {α τ : Type}
    (gen : Region → List (Sample α) × List τ) (taken : List Region) :
    ((_region_worker gen taken).1).countP isStop = 1 := by
  rw [_region_worker_items_eq, List.countP_append, List.countP_map]
  have h1 : (isStop (α := α)) ∘ Item.sample = fun _ => false := rfl
  rw [h1]
  simp [List.countP_cons, isStop, List.countP_eq_zero]
  refine List.sum_eq_zero_iff.2 ?_
  intro x hx
  rcases List.mem_map.1 hx with ⟨r, _, rfl⟩
  rfl

/-- A possible suffix of a worker's queue traffic: empty, or sentinel-free
items followed by the single closing sentinel. -/
def SentinelSuffix {α : Type} (l : List (Item α)) : Prop :=
  l = [] ∨ ∃ l', l = l' ++ [Item.stop] ∧ l'.countP isStop = 0

theorem SentinelSuffix.of_cons_sample {α : Type} {s : Sample α}
    {l : List (Item α)} (h : SentinelSuffix (Item.sample s :: l)) :
    SentinelSuffix l := by
  rcases h with h | ⟨l', hl, hc⟩
  · exact absurd h (List.cons_ne_nil _ _)
  · cases l' with
    | nil => simp at hl
    | cons a t =>
      rw [List.cons_append] at hl
      injection hl with h1 h2
      subst h2
      refine Or.inr ⟨t, rfl, ?_⟩
      subst h1
      simpa [List.countP_cons, isStop] using hc

theorem SentinelSuffix.eq_nil_of_cons_stop {α : Type}
    {l : List (Item α)} (h : SentinelSuffix (Item.stop :: l)) : l = [] := by
  rcases h with h | ⟨l', hl, hc⟩
  · exact absurd h (List.cons_ne_nil _ _)
  · cases l' with
    | nil =>
      simpa using hl
    | cons a t =>
      rw [List.cons_append] at hl
      injection hl with h1 h2
      subst h1
      simp [List.countP_cons, isStop] at hc

theorem SentinelSuffix.countP_eq_one {α : Type} {l : List (Item α)}
    (h : SentinelSuffix l) (hne : l ≠ []) : l.countP isStop = 1 := by
  rcases h with h | ⟨l', rfl, hc⟩
  · exact absurd h hne
  · simp [List.countP_append, List.countP_cons, isStop, hc]

theorem SentinelSuffix.eq_nil_of_countP_eq_zero {α : Type}
    {l : List (Item α)} (h : SentinelSuffix l) (hc : l.countP isStop = 0) :
    l = [] := by
  rcases h with h | ⟨l', rfl, hc'⟩
  · exact h
  · simp [List.countP_append, List.countP_cons, isStop, hc'] at hc

/-- A worker's traffic is a `SentinelSuffix` (of itself): sentinel-free
samples followed by the single sentinel. -/
theorem _region_worker_sentinel_suffix {α τ : Type}
    (gen : Region → List (Sample α) × List τ) (taken : List Region) :
    SentinelSuffix (_region_worker gen taken).1 := by
  rw [_region_worker_items_eq]
  refine Or.inr ⟨_, rfl, ?_⟩
  rw [List.countP_eq_zero.2]
  intro a ha
  rcases List.mem_map.1 ha with ⟨s, _, rfl⟩
  simp [isStop]

/-- Central lemma about the assembler's intake loop: on any merge of
sentinel-terminated worker streams, `_get_samples` started with `k` sentinels
already counted (where `k` plus the sentinels still in the stream makes `N`)
yields exactly the samples of the stream, in merge order. -/
theorem _get_samples_aux_interleaving {α : Type} {ls : List (List (Item α))}
    {stream : List (Item α)} (h : Interleaving ls stream) :
    (∀ l ∈ ls, SentinelSuffix l) → ∀ k N, k + stream.countP isStop = N →
      _get_samples_aux N k stream = stream.filterMap sampleOf := by
  induction h with
  | nil ls hls =>
    intro _ k N _
    rfl
  | cons ls₁ x l ls₂ xs hsub ih =>
    intro hS k N hc
    have hSx : SentinelSuffix (x :: l) :=
      hS _ (List.mem_append.2 (Or.inr (List.mem_cons_self _ _)))
    have hS' : SentinelSuffix l → ∀ m ∈ ls₁ ++ l :: ls₂, SentinelSuffix m := by
      intro hSl m hm
      rcases List.mem_append.1 hm with h1 | h2
      · exact hS m (List.mem_append.2 (Or.inl h1))
      · rcases List.mem_cons.1 h2 with rfl | h3
        · exact hSl
        · exact hS m (List.mem_append.2 (Or.inr (List.mem_cons_of_mem _ h3)))
    cases x with
    | sample s =>
      have hc' : k + xs.countP isStop = N := by
        simpa [List.countP_cons, isStop] using hc
      have := ih (hS' hSx.of_cons_sample) k N hc'
      simp only [_get_samples_aux, List.filterMap_cons, sampleOf]
      rw [this]
    | stop =>
      have hl : l = [] := hSx.eq_nil_of_cons_stop
      subst hl
      have hc2 : k + 1 + xs.countP isStop = N := by
        simp only [List.countP_cons, isStop, if_true] at hc
        omega
      by_cases hkN : k + 1 = N
      · have hzero : xs.countP isStop = 0 := by omega
        have hperm := hsub.perm_flatten
        have hflat : ((ls₁ ++ ([] : List (Item α)) :: ls₂).flatten).countP isStop
            = 0 := by
          rw [← hperm.countP_eq isStop]
          exact hzero
        have hall : ∀ m ∈ ls₁ ++ ([] : List (Item α)) :: ls₂, m = [] := by
          intro m hm
          have hm0 : m.countP isStop = 0 := by
            rw [List.countP_flatten] at hflat
            have := (List.sum_eq_zero_iff).1 hflat (m.countP isStop)
              (List.mem_map.2 ⟨m, hm, rfl⟩)
            exact this
          exact (hS' (Or.inl rfl) m hm).eq_nil_of_countP_eq_zero hm0
        have hxs : xs = [] := by
          have h0 : (ls₁ ++ ([] : List (Item α)) :: ls₂).flatten = [] :=
            List.flatten_eq_nil_iff.mpr hall
          rw [h0] at hperm
          exact hperm.eq_nil
        subst hxs
        simp [_get_samples_aux, hkN, List.filterMap_cons, sampleOf]
      · have := ih (hS' (Or.inl rfl)) (k + 1) N hc2
        simp only [_get_samples_aux, hkN, if_false, List.filterMap_cons,
          sampleOf]
        rw [this]

/-- The merged traffic of the workers carries exactly one sentinel per
worker, and `_get_samples` run for that worker count yields exactly the
samples of the merged stream, in merge order. -/
theorem _get_samples_interleaving {α τ : Type}
    (gen : Region → List (Sample α) × List τ) (A : List (List Region))
    {stream : List (Item α)}
    (h : Interleaving (A.map (fun t => (_region_worker gen t).1)) stream) :
    stream.countP isStop = A.length ∧
      _get_samples A.length stream = stream.filterMap sampleOf := by
  have hcount : stream.countP isStop = A.length := by
    rw [h.perm_flatten.countP_eq isStop, List.countP_flatten, List.map_map]
    have h1 : (List.countP isStop ∘ fun t => (_region_worker gen t).1)
        = fun _ => 1 := by
      funext t
      exact _region_worker_countP_stop gen t
    rw [h1]
    simp
  refine ⟨hcount, ?_⟩
  refine _get_samples_aux_interleaving h ?_ 0 A.length ?_
  · intro l hl
    rcases List.mem_map.1 hl with ⟨t, _, rfl⟩
    exact _region_worker_sentinel_suffix gen t
  · rw [Nat.zero_add, hcount]

/-! ### Facts about the grouping step -/

theorem grouper_nil {α : Type} (n : Nat) : grouper n ([] : List α) = [] := by
  rw [grouper]

theorem grouper_cons {α : Type} (n : Nat) (x : α) (rest : List α)
    (hn : n ≠ 0) :
    grouper n (x :: rest)
      = (x :: rest).take n :: grouper n ((x :: rest).drop n) := by
  rw [grouper]
  simp [hn]

theorem grouper_ne_nil {α : Type} (n : Nat) (x : α) (rest : List α)
    (hn : n ≠ 0) : grouper n (x :: rest) ≠ [] := by
  rw [grouper_cons n x rest hn]
  exact List.cons_ne_nil _ _

/-- Re-concatenating the groups gives back the stream: grouping drops no
element, adds no element and keeps arrival order. -/
theorem grouper_flatten {α : Type} (n : Nat) (hn : 0 < n) (xs : List α) :
    (grouper n xs).flatten = xs := by
  have H : ∀ m (xs : List α), xs.length ≤ m → (grouper n xs).flatten = xs := by
    intro m
    induction m with
    | zero =>
      intro xs h
      have hx : xs = [] := List.length_eq_zero.1 (Nat.le_zero.1 h)
      subst hx
      rw [grouper_nil]
      rfl
    | succ m ih =>
      intro xs h
      cases xs with
      | nil =>
        rw [grouper_nil]
        rfl
      | cons x rest =>
        rw [grouper_cons n x rest (Nat.pos_iff_ne_zero.1 hn),
          List.flatten_cons, ih ((x :: rest).drop n) ?goal]
        · exact List.take_append_drop n (x :: rest)
        case goal =>
          rw [List.length_drop]
          have h2 : (x :: rest).length ≤ m + 1 := h
          omega
  exact H xs.length xs le_rfl

/-- Every group is nonempty and no larger than the requested size. -/
theorem grouper_mem_length {α : Type} (n : Nat) (hn : 0 < n) (xs : List α) :
    ∀ b ∈ grouper n xs, 0 < b.length ∧ b.length ≤ n := by
  have H : ∀ m (xs : List α), xs.length ≤ m →
      ∀ b ∈ grouper n xs, 0 < b.length ∧ b.length ≤ n := by
    intro m
    induction m with
    | zero =>
      intro xs h b hb
      have hx : xs = [] := List.length_eq_zero.1 (Nat.le_zero.1 h)
      subst hx
      rw [grouper_nil] at hb
      exact absurd hb (List.not_mem_nil b)
    | succ m ih =>
      intro xs h b hb
      cases xs with
      | nil =>
        rw [grouper_nil] at hb
        exact absurd hb (List.not_mem_nil b)
      | cons x rest =>
        rw [grouper_cons n x rest (Nat.pos_iff_ne_zero.1 hn)] at hb
        rcases List.mem_cons.1 hb with rfl | hb2
        · rw [List.length_take]
          constructor
          · exact lt_min hn (Nat.succ_pos _)
          · exact min_le_left _ _
        · refine ih ((x :: rest).drop n) ?_ b hb2
          rw [List.length_drop]
          have h2 : (x :: rest).length ≤ m + 1 := h
          omega
  exact H xs.length xs le_rfl

/-- Every group except possibly the last is exactly the requested size. -/
theorem grouper_dropLast_length {α : Type} (n : Nat) (hn : 0 < n)
    (xs : List α) : ∀ b ∈ (grouper n xs).dropLast, b.length = n := by
  have H : ∀ m (xs : List α), xs.length ≤ m →
      ∀ b ∈ (grouper n xs).dropLast, b.length = n := by
    intro m
    induction m with
    | zero =>
      intro xs h b hb
      have hx : xs = [] := List.length_eq_zero.1 (Nat.le_zero.1 h)
      subst hx
      rw [grouper_nil] at hb
      exact absurd hb (List.not_mem_nil b)
    | succ m ih =>
      intro xs h b hb
      cases xs with
      | nil =>
        rw [grouper_nil] at hb
        exact absurd hb (List.not_mem_nil b)
      | cons x rest =>
        rw [grouper_cons n x rest (Nat.pos_iff_ne_zero.1 hn)] at hb
        rcases hG : grouper n ((x :: rest).drop n) with _ | ⟨g, G⟩
        · rw [hG] at hb
          exact absurd hb (List.not_mem_nil b)
        · rw [hG, List.dropLast_cons₂] at hb
          rcases List.mem_cons.1 hb with rfl | hb2
          · -- the full leading group: the tail groups are nonempty, so the
            -- stream extends past this group and the take is full
            have hd : (x :: rest).drop n ≠ [] := by
              intro hdrop
              rw [hdrop, grouper_nil] at hG
              exact List.cons_ne_nil _ _ hG.symm
            have hlen : n < (x :: rest).length := by
              by_contra hle
              rw [List.drop_eq_nil_iff.mpr (Nat.le_of_not_lt hle)] at hd
              · exact hd rfl
            rw [List.length_take]
            omega
          · refine ih ((x :: rest).drop n) ?_ b ?_
            · rw [List.length_drop]
              have h2 : (x :: rest).length ≤ m + 1 := h
              omega
            · rw [hG]
              exact hb2
  exact H xs.length xs le_rfl

/-! ### Facts about stacking -/

/-- Row-major segment extraction from a concatenation of equal-length rows:
dropping `i` whole rows and taking one row yields row `i`. -/
theorem flatten_drop_take {α : Type} :
    ∀ (L : List (List α)) (p : Nat), (∀ l ∈ L, l.length = p) →
      ∀ i (hi : i < L.length),
        (L.flatten.drop (i * p)).take p = L.get ⟨i, hi⟩ := by
  intro L
  induction L with
  | nil =>
    intro p _ i hi
    exact absurd hi (Nat.not_lt_zero i)
  | cons d L' ih =>
    intro p hp i hi
    have hd : d.length = p := hp d (List.mem_cons_self _ _)
    cases i with
    | zero =>
      simp only [List.flatten_cons, Nat.zero_mul, List.drop_zero]
      rw [List.take_left' hd]
      rfl
    | succ i =>
      simp only [List.flatten_cons]
      have hmul : (i + 1) * p = p + i * p := by ring
      rw [hmul, ← List.drop_drop, List.drop_left' hd]
      exact ih p (fun l hl => hp l (List.mem_cons_of_mem _ hl)) i
        (Nat.lt_of_succ_lt_succ hi)

/-- The shape produced by `np.stack` on a nonempty list of equal-shape
arrays: the common shape behind a new leading axis of their number. -/
theorem npStack_shape {α : Type} (ts : List (NDArray α)) (shp : List Nat)
    (hne : ts ≠ []) (hs : ∀ t ∈ ts, t.shape = shp) :
    (npStack ts).shape = ts.length :: shp := by
  cases ts with
  | nil => exact absurd rfl hne
  | cons t ts' =>
    simp [npStack, hs t (List.mem_cons_self _ _)]

/-- Slicing a stacked array along the new leading axis recovers the input
arrays: slice `i` is input `i`, bit for bit. -/
theorem npStack_slice {α : Type} (ts : List (NDArray α)) (shp : List Nat)
    (hs : ∀ t ∈ ts, t.shape = shp) (hv : ∀ t ∈ ts, t.data.length = shp.prod)
    (i : Nat) (hi : i < ts.length) :
    (npStack ts).slice i = ts.get ⟨i, hi⟩ := by
  cases ts with
  | nil => exact absurd hi (Nat.not_lt_zero i)
  | cons t ts' =>
    have hslice : (npStack (t :: ts')).slice i
        = ⟨t.shape, ((((t :: ts').map NDArray.data).flatten).drop
            (i * t.shape.prod)).take t.shape.prod⟩ := rfl
    rw [hslice]
    have ht : t.shape = shp := hs t (List.mem_cons_self _ _)
    have hdata : ((((t :: ts').map NDArray.data).flatten).drop
          (i * t.shape.prod)).take t.shape.prod
        = ((t :: ts').get ⟨i, hi⟩).data := by
      rw [ht]
      have hlen : ∀ l ∈ (t :: ts').map NDArray.data, l.length = shp.prod := by
        intro l hl
        rcases List.mem_map.1 hl with ⟨u, hu, rfl⟩
        exact hv u hu
      have hi' : i < ((t :: ts').map NDArray.data).length := by
        rw [List.length_map]
        exact hi
      rw [flatten_drop_take ((t :: ts').map NDArray.data) shp.prod hlen i hi']
      simp only [List.get_eq_getElem, List.getElem_map]
    have hshape : t.shape = ((t :: ts').get ⟨i, hi⟩).shape := by
      rw [ht, hs _ (List.get_mem _ _ _)]
    rw [NDArray.mk.injEq]
    exact ⟨hshape, hdata⟩

/-- Rebinding a sample to its own features is the identity. -/
theorem Sample.amend_self {α : Type} (s : Sample α) :
    s.amend s.features = s := rfl

/-- The key (region and position) of an amended sample is unchanged. -/
theorem Sample.key_amend {α : Type} (s : Sample α) (f : NDArray α) :
    (s.amend f).key = s.key := rfl

theorem map_key_zipWith_amend {α : Type} :
    ∀ (g : List (Sample α)) (L : List (NDArray α)), g.length ≤ L.length →
      (List.zipWith (fun feat s => s.amend feat) L g).map Sample.key
        = g.map Sample.key := by
  intro g
  induction g with
  | nil =>
    intro L _
    simp
  | cons s t ih =>
    intro L hL
    cases L with
    | nil => simp at hL
    | cons a M =>
      simp only [List.zipWith_cons_cons, List.map_cons, Sample.key_amend]
      rw [ih M (Nat.le_of_succ_le_succ hL)]

/-- The sample list the batch worker emits for one group has the same keys
(regions and positions), in the same order, as the group. -/
theorem mkBatch_key_eq {α : Type} (g : List (Sample α)) :
    ((mkBatch g).1).map Sample.key = g.map Sample.key := by
  refine map_key_zipWith_amend g _ ?_
  rw [List.length_map, List.length_range]

theorem mkBatch_fst_length {α : Type} (g : List (Sample α)) :
    (mkBatch g).1.length = g.length := by
  have h := mkBatch_key_eq g
  have := congrArg List.length h
  simpa using this

/-- With a uniform feature shape, the batch worker's rebinding is the
identity on the group: each emitted sample equals the incoming one, its
features being slice `i` of the stack, which equals its own features. -/
theorem mkBatch_fst_eq {α : Type} (g : List (Sample α)) (shp : List Nat)
    (hs : ∀ s ∈ g, s.features.shape = shp)
    (hv : ∀ s ∈ g, s.features.data.length = shp.prod) :
    (mkBatch g).1 = g := by
  refine List.ext_getElem ?_ ?_
  · exact mkBatch_fst_length g
  · intro i h1 h2
    have hlen : ((List.range g.length).map
        (npStack (g.map Sample.features)).slice).length = g.length := by
      rw [List.length_map, List.length_range]
    have hi3 : i < ((List.range g.length).map
        (npStack (g.map Sample.features)).slice).length := by
      rw [hlen]
      exact h2
    have hzip : (mkBatch g).1[i]
        = (g[i]).amend (((List.range g.length).map
            (npStack (g.map Sample.features)).slice)[i]) := by
      exact List.getElem_zipWith
    rw [hzip]
    have hslice : ((List.range g.length).map
        (npStack (g.map Sample.features)).slice)[i]
        = (npStack (g.map Sample.features)).slice i := by
      rw [List.getElem_map, List.getElem_range]
    rw [hslice]
    have hfs : ∀ t ∈ g.map Sample.features, t.shape = shp := by
      intro t ht
      rcases List.mem_map.1 ht with ⟨s, hsmem, rfl⟩
      exact hs s hsmem
    have hfv : ∀ t ∈ g.map Sample.features, t.data.length = shp.prod := by
      intro t ht
      rcases List.mem_map.1 ht with ⟨s, hsmem, rfl⟩
      exact hv s hsmem
    have hi' : i < (g.map Sample.features).length := by
      rw [List.length_map]; exact h2
    rw [npStack_slice (g.map Sample.features) shp hfs hfv i hi']
    have : (g.map Sample.features).get ⟨i, hi'⟩ = (g[i]).features := by
      simp only [List.get_eq_getElem, List.getElem_map]
    rw [this, Sample.amend_self]

/-- Re-concatenating the batch worker's emitted sample lists gives back the
incoming sample stream, up to the feature rebinding (keys, i.e. regions and
positions, are preserved in order). -/
theorem _batch_worker_flatten_key {α : Type} (bs : Nat) (hbs : 0 < bs)
    (stream : List (Sample α)) :
    ((_batch_worker_batches bs stream).map (fun b => b.1)).flatten.map
        Sample.key
      = stream.map Sample.key := by
  unfold _batch_worker_batches
  rw [List.map_map, List.map_flatten, List.map_map]
  have h1 : (List.map Sample.key ∘ (fun b => b.1) ∘ mkBatch)
      = fun g : List (Sample α) => g.map Sample.key := by
    funext g
    exact mkBatch_key_eq g
  rw [h1]
  have h2 : (List.map (fun g : List (Sample α) => g.map Sample.key)
      (grouper bs stream)).flatten
      = ((grouper bs stream).flatten).map Sample.key := by
    rw [List.map_flatten]
  rw [h2, grouper_flatten bs hbs]

/-- The last element of an `Option`-successful `getLast?` is a member. -/
theorem getLast?_mem {α : Type} :
    ∀ (l : List α) (a : α), l.getLast? = some a → a ∈ l := by
  intro l
  induction l with
  | nil =>
    intro a h
    simp at h
  | cons x t ih =>
    intro a h
    cases t with
    | nil =>
      simp at h
      subst h
      exact List.mem_cons_self _ _
    | cons y s =>
      rw [List.getLast?_cons_cons] at h
      exact List.mem_cons_of_mem x (ih a h)

/-! ### Per-region bookkeeping helpers -/

/-- Lift a sample predicate to queue items (sentinels never match). -/
def sampleFilter {α : Type} (p : Sample α → Bool) : Item α → Bool
  | .sample s => p s
  | .stop => false

theorem filter_filterMap_sampleOf {α : Type} (p : Sample α → Bool) :
    ∀ stream : List (Item α),
      (stream.filterMap sampleOf).filter p
        = (stream.filter (sampleFilter p)).filterMap sampleOf := by
  intro stream
  induction stream with
  | nil => rfl
  | cons it rest ih =>
    cases it with
    | sample s =>
      by_cases hp : p s = true
      · simp [List.filterMap_cons, List.filter_cons, sampleOf, sampleFilter,
          hp, ih]
      · simp [List.filterMap_cons, List.filter_cons, sampleOf, sampleFilter,
          hp, ih]
    | stop =>
      simp [List.filterMap_cons, List.filter_cons, sampleOf, sampleFilter, ih]

/-- A worker's traffic filtered by a sample predicate: the matching samples
of its regions, in order. -/
theorem _region_worker_filter {α τ : Type} (p : Sample α → Bool)
    (gen : Region → List (Sample α) × List τ) (taken : List Region) :
    ((_region_worker gen taken).1).filter (sampleFilter p)
      = (((taken.map (fun r => (gen r).1)).flatten).filter p).map
          Item.sample := by
  rw [_region_worker_items_eq, List.filter_append, List.filter_map]
  have h1 : sampleFilter p ∘ Item.sample = p := rfl
  rw [h1]
  simp [sampleFilter]

/-- Filtering the samples of several regions for one target region keeps
only the regions matching the target, given faithful region tagging. -/
theorem filter_region_flatten {α τ : Type}
    (gen : Region → List (Sample α) × List τ) (r : Region)
    (htag : ∀ r' s, s ∈ (gen r').1 → s.region = r') :
    ∀ taken : List Region,
      ((taken.map (fun u => (gen u).1)).flatten).filter
          (fun s => decide (s.region = r))
        = ((taken.filter (fun u => decide (u = r))).map
            (fun u => (gen u).1)).flatten := by
  intro taken
  induction taken with
  | nil => rfl
  | cons u rest ih =>
    simp only [List.map_cons, List.flatten_cons, List.filter_append,
      List.filter_cons]
    by_cases hu : u = r
    · subst hu
      rw [if_pos (by simp), List.map_cons, List.flatten_cons, ih,
        List.filter_eq_self.2]
      intro s hsmem
      simp [htag u s hsmem]
    · rw [if_neg (by simp [hu]), ih]
      have h0 : ((gen u).1).filter (fun s => decide (s.region = r)) = [] := by
        rw [List.filter_eq_nil_iff]
        intro s hsmem
        simp [htag u s hsmem, hu]
      rw [h0]
      rfl

/-- A list of naturals summing to one has exactly one nonzero entry, equal
to one. -/
theorem sum_map_eq_one_split {β : Type} (f : β → Nat) :
    ∀ A : List β, (A.map f).sum = 1 →
      ∃ A₁ b A₂, A = A₁ ++ b :: A₂ ∧ f b = 1 ∧
        (∀ c ∈ A₁, f c = 0) ∧ (∀ c ∈ A₂, f c = 0) := by
  intro A
  induction A with
  | nil =>
    intro h
    simp at h
  | cons b A' ih =>
    intro h
    simp only [List.map_cons, List.sum_cons] at h
    rcases Nat.eq_zero_or_pos (f b) with h0 | hpos
    · rcases ih (by omega) with ⟨A₁, c, A₂, rfl, hc, h₁, h₂⟩
      exact ⟨b :: A₁, c, A₂, rfl, hc, by
        intro d hd
        rcases List.mem_cons.1 hd with rfl | hd2
        · exact h0
        · exact h₁ d hd2, h₂⟩
    · have hb1 : f b = 1 := by omega
      have hrest : (A'.map f).sum = 0 := by omega
      refine ⟨[], b, A', rfl, hb1, by intro c hc; simp at hc, ?_⟩
      intro c hc
      exact List.sum_eq_zero_iff.1 hrest (f c) (List.mem_map.2 ⟨c, hc, rfl⟩)

/-- Flattening region assignments commutes with per-region expansion. -/
theorem flatten_map_flatten {β γ : Type} (f : β → List γ) :
    ∀ A : List (List β),
      (A.map (fun t => (t.map f).flatten)).flatten = ((A.flatten).map f).flatten := by
  intro A
  induction A with
  | nil => rfl
  | cons t A' ih =>
    simp only [List.map_cons, List.flatten_cons, List.map_append,
      List.flatten_append, ih]

/-- Samples never count as sentinels. -/
theorem countP_stop_map_sample {α : Type} (l : List (Sample α)) :
    (l.map Item.sample).countP isStop = 0 := by
  rw [List.countP_map]
  have h1 : (isStop (α := α)) ∘ Item.sample = fun _ => false := rfl
  rw [h1, List.countP_false]
  rfl

end DataLoader

/-- A single stream interleaves with itself. -/
theorem interleaving_self {γ : Type} : ∀ l : List γ, Interleaving [l] l
  | [] => Interleaving.nil [[]] (by intro l hl; simpa using hl)
  | x :: t => Interleaving.cons [] x t [] t (interleaving_self t)

/-- A small concrete sample used to instantiate the theorems below. -/
def wSample (k : Nat) : Sample Nat :=
  ⟨⟨0, 0, 1⟩, k, ⟨[1], [k]⟩⟩

/-! ### Claims -/

/-- Claim C1, counterexample: the claim says the Batch Queue, being created
with capacity 0, is a rendezvous buffer whose push blocks until the consumer
has retrieved the previous batch.  But with the batch queue's maxsize (0, as
set in `DataLoader.__init__`) and one batch already in the queue, a put does
not block: in the queue implementation, `maxsize <= 0` means an infinite
queue, not a rendezvous. -/
theorem c1_rendezvous_counterexample :
    pyQueuePutBlocks DataLoader.init_batch_queue_maxsize 1 = false := rfl

/-- Claim C1, amended: the Batch Queue is created with maxsize 0, which the
queue implementation treats as an unbounded queue, so the Batch Assembler's
push never blocks, whatever the number of batches already in flight — more
than one batch can be in flight at a time. -/
theorem c1_batch_queue_unbounded (qsize : Nat) :
    pyQueuePutBlocks DataLoader.init_batch_queue_maxsize qsize = false := by
  simp [pyQueuePutBlocks, DataLoader.init_batch_queue_maxsize]

/-- Claim C9: `run_prediction` is claimed to forward its `bam_workers` value
to the loader unchanged; in fact its `DataLoader(...)` call passes the
literal `bam_workers=2`, so with `bam_workers=4` requested only 2 region
worker threads start.  The sample-queue capacity part of the claim does hold:
`batch_cache_size * batch_size = 8 * 200`. -/
theorem c9_workers_hardcoded :
    workers_started (run_prediction_loader_args 200 4) = 2 ∧
    workers_started (run_prediction_loader_args 200 4) ≠ 4 ∧
    sample_queue_maxsize (run_prediction_loader_args 200 4) = 8 * 200 := by
  refine ⟨rfl, by decide, rfl⟩

/-- Claim C10: when more than 2 threads are requested, `predict` silently
reduces the count to exactly 2 before configuring inference, so the inter-op
thread count handed to the backend never exceeds 2, whatever was
requested. -/
theorem c10_threads_capped (threads : Nat) (h : 2 < threads) :
    predict_effective_threads threads = 2 ∧
    (∀ t : Nat, tf_num_interop_threads t ≤ 2) := by
  constructor
  · simp [predict_effective_threads, h]
  · intro t
    by_cases ht : 2 < t
    · simp [tf_num_interop_threads, predict_effective_threads, ht]
    · simp only [tf_num_interop_threads, predict_effective_threads, ht,
        if_false]
      omega

/-- Claim C10, witness: requesting 16 threads yields 2, and the inter-op
count is capped at 2 for every request. -/
theorem c10_threads_capped_witness :
    2 < 16 ∧ (predict_effective_threads 16 = 2 ∧
      ∀ t : Nat, tf_num_interop_threads t ≤ 2) :=
  ⟨by decide, c10_threads_capped 16 (by decide)⟩

/-- Claim C6, counterexample: the claim says no exit path leaves the
worker's sentinel unposted, even when sample generation raises.  But with a
generator that raises on the worker's first region, the worker's traffic
contains zero sentinels: the error path exits without posting. -/
theorem c6_error_skips_sentinel :
    ((DataLoader._region_worker_exc
        (fun _ => (Except.error ()
          : Except Unit (List (Sample Nat) × List Nat)))
        [⟨0, 0, 1⟩]).1).countP isStop = 0 := rfl

/-- Claim C6, amended: the sentinel is posted only on the empty-intake exit
path.  A worker whose regions all generate successfully posts exactly one
sentinel; a worker whose sample generation raises at any region exits with
no sentinel posted at all (the exception propagates uncaught), so the
assembler can be left waiting for its N-th sentinel. -/
theorem c6_sentinel_only_on_clean_exit {α τ ε : Type}
    (gen : Region → Except ε (List (Sample α) × List τ)) :
    (∀ taken : List Region, (∀ u ∈ taken, ∃ v, gen u = Except.ok v) →
      ((DataLoader._region_worker_exc gen taken).1).countP isStop = 1) ∧
    (∀ u posts, (∃ e, gen u = Except.error e) →
      ∀ pre, (∀ v ∈ pre, ∃ w, gen v = Except.ok w) →
      ((DataLoader._region_worker_exc gen (pre ++ u :: posts)).1).countP
        isStop = 0) := by
  constructor
  · intro taken h
    induction taken with
    | nil => rfl
    | cons v rest ih =>
      rcases h v (List.mem_cons_self _ _) with ⟨w, hw⟩
      simp only [DataLoader._region_worker_exc, hw, List.countP_append,
        DataLoader.countP_stop_map_sample]
      rw [ih (fun u hu => h u (List.mem_cons_of_mem _ hu))]
  · intro u posts herr pre
    induction pre with
    | nil =>
      intro _
      obtain ⟨e, he⟩ := herr
      simp [DataLoader._region_worker_exc, he]
    | cons v pre' ih =>
      intro hpre
      rcases hpre v (List.mem_cons_self _ _) with ⟨w, hw⟩
      simp only [List.cons_append, DataLoader._region_worker_exc, hw,
        List.countP_append, DataLoader.countP_stop_map_sample]
      simpa using ih (fun x hx => hpre x (List.mem_cons_of_mem _ hx))

/-- Claim C6, amended, witness: a generator that always raises gives a
sentinel-free traffic for one region, and a worker with no regions still
posts its single sentinel. -/
theorem c6_sentinel_only_on_clean_exit_witness :
    ((DataLoader._region_worker_exc
        (fun _ => (Except.error ()
          : Except Unit (List (Sample Nat) × List Nat))) []).1).countP
      isStop = 1 ∧
    ((DataLoader._region_worker_exc
        (fun _ => (Except.error ()
          : Except Unit (List (Sample Nat) × List Nat)))
        ([] ++ (⟨0, 0, 1⟩ : Region) :: [])).1).countP isStop = 0 := by
  have h := c6_sentinel_only_on_clean_exit
    (fun _ => (Except.error () : Except Unit (List (Sample Nat) × List Nat)))
  refine ⟨h.1 [] ?_, h.2 ⟨0, 0, 1⟩ [] ⟨(), rfl⟩ [] ?_⟩
  · intro u hu
    exact absurd hu (List.not_mem_nil u)
  · intro v hv
    exact absurd hv (List.not_mem_nil v)

/-- Claim C3: the Batch Assembler groups consecutive samples in arrival
order; every emitted batch except possibly the last holds exactly
`batch_size` samples, the last between 1 and `batch_size`; re-concatenating
the batches gives back the sample stream key for key (so nothing is padded,
dropped or reordered), and the total sample count over batches equals the
count produced. -/
theorem c3_batch_sizes {α : Type} (batch_size : Nat) (hbs : 0 < batch_size)
    (stream : List (Sample α)) :
    (∀ b ∈ (DataLoader._batch_worker_batches batch_size stream).dropLast,
        b.1.length = batch_size) ∧
    (∀ b, (DataLoader._batch_worker_batches batch_size stream).getLast?
        = some b → 1 ≤ b.1.length ∧ b.1.length ≤ batch_size) ∧
    ((DataLoader._batch_worker_batches batch_size stream).map
        (fun b => b.1)).flatten.map Sample.key = stream.map Sample.key ∧
    ((DataLoader._batch_worker_batches batch_size stream).map
        (fun b => b.1.length)).sum = stream.length := by
  refine ⟨?_, ?_, DataLoader._batch_worker_flatten_key batch_size hbs stream,
    ?_⟩
  · intro b hb
    unfold DataLoader._batch_worker_batches at hb
    rw [← List.map_dropLast] at hb
    rcases List.mem_map.1 hb with ⟨g, hg, rfl⟩
    rw [DataLoader.mkBatch_fst_length]
    exact DataLoader.grouper_dropLast_length batch_size hbs stream g hg
  · intro b hb
    unfold DataLoader._batch_worker_batches at hb
    rw [List.getLast?_map] at hb
    rcases hG : (DataLoader.grouper batch_size stream).getLast? with _ | g
    · rw [hG] at hb
      exact absurd hb (by simp)
    · rw [hG] at hb
      have hbg : b = DataLoader.mkBatch g := by
        simpa using hb.symm
      subst hbg
      rw [DataLoader.mkBatch_fst_length]
      have hmem : g ∈ DataLoader.grouper batch_size stream :=
        DataLoader.getLast?_mem _ g hG
      have := DataLoader.grouper_mem_length batch_size hbs stream g hmem
      exact ⟨this.1, this.2⟩
  · unfold DataLoader._batch_worker_batches
    rw [List.map_map]
    have h1 : ((fun b : List (Sample α) × NDArray α => b.1.length)
        ∘ DataLoader.mkBatch) = fun g : List (Sample α) => g.length := by
      funext g
      exact DataLoader.mkBatch_fst_length g
    rw [h1]
    have h2 : ((DataLoader.grouper batch_size stream).map
        (fun g : List (Sample α) => g.length)).sum
        = ((DataLoader.grouper batch_size stream).flatten).length :=
      (List.length_flatten _).symm
    rw [h2, DataLoader.grouper_flatten batch_size hbs stream]

/-- Claim C3, witness: three samples at batch size 2 give batches of sizes
2 then 1, with keys and totals preserved. -/
theorem c3_batch_sizes_witness :
    0 < 2 ∧
    ((∀ b ∈ (DataLoader._batch_worker_batches 2
          [wSample 0, wSample 1, wSample 2]).dropLast, b.1.length = 2) ∧
     (∀ b, (DataLoader._batch_worker_batches 2
          [wSample 0, wSample 1, wSample 2]).getLast? = some b →
        1 ≤ b.1.length ∧ b.1.length ≤ 2) ∧
     ((DataLoader._batch_worker_batches 2
          [wSample 0, wSample 1, wSample 2]).map
        (fun b => b.1)).flatten.map Sample.key
        = [wSample 0, wSample 1, wSample 2].map Sample.key ∧
     ((DataLoader._batch_worker_batches 2
          [wSample 0, wSample 1, wSample 2]).map
        (fun b => b.1.length)).sum
        = [wSample 0, wSample 1, wSample 2].length) :=
  ⟨by decide, c3_batch_sizes 2 (by decide) [wSample 0, wSample 1, wSample 2]⟩

/-- Claim C4: for a batch of k samples sharing one (well-formed) feature
shape, the stacked array has shape `k :: shape`, its slice at index i equals
sample i's feature matrix, and the emitted sample list is the group itself
in order, each sample's features rebound to its own slice (which equals its
original features). -/
theorem c4_stacking {α : Type} (g : List (Sample α)) (shp : List Nat)
    (hne : g ≠ []) (hs : ∀ s ∈ g, s.features.shape = shp)
    (hv : ∀ s ∈ g, s.features.data.length = shp.prod) :
    (DataLoader.mkBatch g).2.shape = g.length :: shp ∧
    (∀ i (hi : i < g.length),
      (DataLoader.mkBatch g).2.slice i = (g.get ⟨i, hi⟩).features) ∧
    (DataLoader.mkBatch g).1 = g := by
  have harr : (DataLoader.mkBatch g).2 = npStack (g.map Sample.features) := rfl
  have hfs : ∀ t ∈ g.map Sample.features, t.shape = shp := by
    intro t ht
    rcases List.mem_map.1 ht with ⟨s, hsmem, rfl⟩
    exact hs s hsmem
  have hfv : ∀ t ∈ g.map Sample.features, t.data.length = shp.prod := by
    intro t ht
    rcases List.mem_map.1 ht with ⟨s, hsmem, rfl⟩
    exact hv s hsmem
  refine ⟨?_, ?_, DataLoader.mkBatch_fst_eq g shp hs hv⟩
  · rw [harr, DataLoader.npStack_shape (g.map Sample.features) shp
      (by simpa [List.map_eq_nil_iff] using hne) hfs, List.length_map]
  · intro i hi
    have hi' : i < (g.map Sample.features).length := by
      rw [List.length_map]
      exact hi
    rw [harr, DataLoader.npStack_slice (g.map Sample.features) shp hfs hfv i hi']
    simp only [List.get_eq_getElem, List.getElem_map]

/-- Claim C4, witness: a concrete two-sample batch of shape [1] features
stacks to shape [2, 1], slice 0 recovers sample 0's features, and the
emitted list is the group itself. -/
theorem c4_stacking_witness :
    (DataLoader.mkBatch [wSample 0, wSample 1]).2.shape = 2 :: [1] ∧
    (DataLoader.mkBatch [wSample 0, wSample 1]).2.slice 0
      = (wSample 0).features ∧
    (DataLoader.mkBatch [wSample 0, wSample 1]).1
      = [wSample 0, wSample 1] := by
  have h := c4_stacking [wSample 0, wSample 1] [1] (by decide)
    (by decide) (by decide)
  exact ⟨h.1, h.2.1 0 (by decide), h.2.2⟩

/-- Claim C2: every region worker pushes exactly one sentinel (never more),
whatever regions it wins and whatever the generator yields; and under any
interleaving of the N workers' traffic, the merged stream carries exactly N
sentinels and the Batch Assembler's intake (`_get_samples`) is exhausted
exactly there, having yielded every sample of the merged stream. -/
theorem c2_sentinel_protocol {α τ : Type}
    (gen : Region → List (Sample α) × List τ) (A : List (List Region))
    (N : Nat) (stream : List (Item α)) (hN : N = A.length) (hpos : 0 < N)
    (hint : Interleaving
      (A.map (fun t => (DataLoader._region_worker gen t).1)) stream) :
    (∀ taken : List Region,
        ((DataLoader._region_worker gen taken).1).countP isStop = 1) ∧
    stream.countP isStop = N ∧
    DataLoader._get_samples N stream = stream.filterMap sampleOf := by
  subst hN
  have h := DataLoader._get_samples_interleaving gen A hint
  exact ⟨fun taken => DataLoader._region_worker_countP_stop gen taken,
    h.1, h.2⟩

/-- Claim C2, witness: one worker with no regions; the merged stream is its
single sentinel, and the assembler's intake ends there with no samples. -/
theorem c2_sentinel_protocol_witness :
    ((DataLoader._region_worker
        (fun _ => (([], []) : List (Sample Nat) × List Unit)) []).1).countP
      isStop = 1 ∧
    ([(Item.stop : Item Nat)].countP isStop = 1 ∧
      DataLoader._get_samples 1 [(Item.stop : Item Nat)]
        = [(Item.stop : Item Nat)].filterMap sampleOf) := by
  have h := c2_sentinel_protocol
    (fun _ => (([], []) : List (Sample Nat) × List Unit)) [[]] 1 [Item.stop]
    rfl (by decide) (interleaving_self [Item.stop])
  exact ⟨h.1 [], h.2.1, h.2.2⟩

/-- Claim C8: with an empty region list every worker's intake is empty, so
(under any interleaving) the merged stream is just the N sentinels, the
assembler emits zero batches, pushes only the end-of-stream marker to the
batch queue, and iterating the loader yields nothing — clean, immediate
termination. -/
theorem c8_empty_regions {α τ : Type}
    (gen : Region → List (Sample α) × List τ) (N batch_size : Nat)
    (hN : 0 < N) (hbs : 0 < batch_size) (stream : List (Item α))
    (hint : Interleaving ((List.replicate N ([] : List Region)).map
        (fun t => (DataLoader._region_worker gen t).1)) stream) :
    DataLoader._get_samples N stream = [] ∧
    DataLoader._batch_worker_batches batch_size
        (DataLoader._get_samples N stream) = [] ∧
    DataLoader._batch_worker_queue batch_size
        (DataLoader._get_samples N stream) = [DataLoader.BQItem.stop] ∧
    DataLoader.nextBatches (DataLoader._batch_worker_queue batch_size
        (DataLoader._get_samples N stream)) = [] := by
  have hlen : (List.replicate N ([] : List Region)).length = N :=
    List.length_replicate N []
  have h := DataLoader._get_samples_interleaving gen
    (List.replicate N []) hint
  rw [hlen] at h
  have hnil : stream.filterMap sampleOf = [] := by
    rw [List.filterMap_eq_nil_iff]
    intro it hit
    have hmem := hint.perm_flatten.mem_iff.1 hit
    rw [List.map_replicate] at hmem
    rcases List.mem_flatten.1 hmem with ⟨l, hl, hitl⟩
    rcases (List.mem_replicate.1 hl).2 with rfl
    have : it = Item.stop := by
      simpa [DataLoader._region_worker] using hitl
    rw [this]
    rfl
  have h0 : DataLoader._get_samples N stream = [] := by
    rw [h.2, hnil]
  have hb : DataLoader._batch_worker_batches batch_size
      (DataLoader._get_samples N stream) = [] := by
    rw [h0]
    unfold DataLoader._batch_worker_batches
    rw [DataLoader.grouper_nil]
    rfl
  have hq : DataLoader._batch_worker_queue batch_size
      (DataLoader._get_samples N stream) = [DataLoader.BQItem.stop] := by
    unfold DataLoader._batch_worker_queue
    rw [hb]
    rfl
  refine ⟨h0, hb, hq, ?_⟩
  rw [hq]
  rfl

/-- Claim C8, witness: one worker, an empty region list, batch size one —
the stream is one sentinel, there are no batches and iteration is empty. -/
theorem c8_empty_regions_witness :
    DataLoader._get_samples 1 [(Item.stop : Item Nat)] = [] ∧
    DataLoader._batch_worker_batches 1
        (DataLoader._get_samples 1 [(Item.stop : Item Nat)]) = [] ∧
    DataLoader._batch_worker_queue 1
        (DataLoader._get_samples 1 [(Item.stop : Item Nat)])
      = [DataLoader.BQItem.stop] ∧
    DataLoader.nextBatches (DataLoader._batch_worker_queue 1
        (DataLoader._get_samples 1 [(Item.stop : Item Nat)])) = [] :=
  c8_empty_regions (fun _ => (([], []) : List (Sample Nat) × List Unit))
    1 1 (by decide) (by decide) [Item.stop]
    (interleaving_self [Item.stop])

/-- A region-tagged concrete generator used to instantiate the theorems
below: each region yields one sample tagged with it and one remainder. -/
def wGenTag : Region → List (Sample Nat) × List Nat :=
  fun u => ([⟨u, 5, ⟨[1], [5]⟩⟩], [42])

/-- Claim C5: when the regions are partitioned among the workers (each
region won exactly once) and the workers' traffic is merged by any
interleaving, the samples across all emitted batches are, as a multiset,
exactly the samples derivable from the region set — nothing lost, nothing
duplicated; and the final remainder list is, as a multiset, exactly all
remainder items reported for any region. -/
theorem c5_accounting {α τ : Type}
    (gen : Region → List (Sample α) × List τ) (A : List (List Region))
    (regions : List Region) (N batch_size : Nat) (stream : List (Item α))
    (rems : List τ) (hN : N = A.length) (hbs : 0 < batch_size)
    (hA : (A.flatten).Perm regions)
    (hint : Interleaving
      (A.map (fun t => (DataLoader._region_worker gen t).1)) stream)
    (hrems : rems.Perm
      ((A.map (fun t => (DataLoader._region_worker gen t).2)).flatten)) :
    (((DataLoader._batch_worker_batches batch_size
        (DataLoader._get_samples N stream)).map (fun b => b.1)).flatten.map
          Sample.key).Perm
      ((regions.map (fun r => ((gen r).1).map Sample.key)).flatten) ∧
    rems.Perm ((regions.map (fun r => (gen r).2)).flatten) := by
  subst hN
  have hgs := (DataLoader._get_samples_interleaving gen A hint).2
  constructor
  · rw [DataLoader._batch_worker_flatten_key batch_size hbs, hgs]
    have hp1 : (stream.filterMap sampleOf).Perm
        (((A.map (fun t =>
          (DataLoader._region_worker gen t).1)).flatten).filterMap
            sampleOf) :=
      hint.perm_flatten.filterMap sampleOf
    have h2 : ((A.map (fun t =>
        (DataLoader._region_worker gen t).1)).flatten).filterMap sampleOf
        = ((A.flatten).map (fun r => (gen r).1)).flatten := by
      rw [List.filterMap_flatten, List.map_map]
      have hfun : (List.filterMap sampleOf ∘ fun t =>
          (DataLoader._region_worker gen t).1)
          = fun t : List Region => (t.map (fun r => (gen r).1)).flatten := by
        funext t
        exact DataLoader._region_worker_samples_eq gen t
      rw [hfun]
      exact DataLoader.flatten_map_flatten _ A
    rw [h2] at hp1
    have hp2 : (((A.flatten).map (fun r => (gen r).1)).flatten).Perm
        ((regions.map (fun r => (gen r).1)).flatten) :=
      (hA.map _).flatten
    have hp3 := (hp1.trans hp2).map Sample.key
    have h3 : ((regions.map (fun r => (gen r).1)).flatten).map Sample.key
        = (regions.map (fun r => ((gen r).1).map Sample.key)).flatten := by
      rw [List.map_flatten, List.map_map]
      rfl
    rw [h3] at hp3
    exact hp3
  · have h4 : (A.map (fun t =>
        (DataLoader._region_worker gen t).2)).flatten
        = ((A.flatten).map (fun r => (gen r).2)).flatten := by
      have hfun : (fun t => (DataLoader._region_worker gen t).2)
          = fun t : List Region => (t.map (fun r => (gen r).2)).flatten := by
        funext t
        exact DataLoader._region_worker_rems_eq gen t
      rw [hfun]
      exact DataLoader.flatten_map_flatten _ A
    rw [h4] at hrems
    exact hrems.trans (hA.map _).flatten

/-- Claim C5, witness: one worker winning the single region; its one sample
lands in the single batch and its one remainder is the whole remainder
list. -/
theorem c5_accounting_witness :
    ((((DataLoader._batch_worker_batches 1
        (DataLoader._get_samples 1
          [Item.sample ⟨⟨0, 0, 1⟩, 5, ⟨[1], [5]⟩⟩, Item.stop])).map
            (fun b => b.1)).flatten.map Sample.key).Perm
      (([(⟨0, 0, 1⟩ : Region)].map
        (fun r => ((wGenTag r).1).map Sample.key)).flatten)) ∧
    ([42] : List Nat).Perm
      (([(⟨0, 0, 1⟩ : Region)].map (fun r => (wGenTag r).2)).flatten) :=
  c5_accounting wGenTag [[⟨0, 0, 1⟩]] [⟨0, 0, 1⟩] 1 1
    [Item.sample ⟨⟨0, 0, 1⟩, 5, ⟨[1], [5]⟩⟩, Item.stop] [42] rfl
    (by decide) (List.Perm.refl _)
    (interleaving_self [Item.sample ⟨⟨0, 0, 1⟩, 5, ⟨[1], [5]⟩⟩, Item.stop])
    (List.Perm.refl _)

/-- Claim C7: if samples are faithfully tagged with their region and region
`r` is won exactly once across the workers, then in the merged sample stream
the subsequence of region-`r` samples is exactly `r`'s generated sample list
(same relative order), and the same holds, key for key, inside the
concatenation of the emitted batches. -/
theorem c7_per_region_order {α τ : Type}
    (gen : Region → List (Sample α) × List τ) (A : List (List Region))
    (N batch_size : Nat) (stream : List (Item α)) (r : Region)
    (hN : N = A.length) (hbs : 0 < batch_size)
    (hint : Interleaving
      (A.map (fun t => (DataLoader._region_worker gen t).1)) stream)
    (htag : ∀ r' s, s ∈ (gen r').1 → s.region = r')
    (honce : (A.flatten).countP (fun u => decide (u = r)) = 1) :
    (DataLoader._get_samples N stream).filter
        (fun s => decide (s.region = r)) = (gen r).1 ∧
    (((DataLoader._batch_worker_batches batch_size
        (DataLoader._get_samples N stream)).map
          (fun b => b.1)).flatten.filter
            (fun s => decide (s.region = r))).map Sample.key
      = ((gen r).1).map Sample.key := by
  subst hN
  have hgs := (DataLoader._get_samples_interleaving gen A hint).2
  have hstream_fil : stream.filter
      (DataLoader.sampleFilter (fun s => decide (s.region = r)))
      = ((gen r).1).map Item.sample := by
    have hsum : (A.map
        (fun t => t.countP (fun u => decide (u = r)))).sum = 1 := by
      rw [← List.countP_flatten]
      exact honce
    rcases DataLoader.sum_map_eq_one_split _ A hsum with
      ⟨A₁, t₀, A₂, rfl, ht₀, h₁, h₂⟩
    have hfil := hint.filter
      (DataLoader.sampleFilter (fun s => decide (s.region = r)))
    simp only [List.map_append, List.map_cons] at hfil
    have hside : ∀ t : List Region,
        t.countP (fun u => decide (u = r)) = 0 →
        ((DataLoader._region_worker gen t).1).filter
          (DataLoader.sampleFilter (fun s => decide (s.region = r)))
          = [] := by
      intro t ht
      rw [DataLoader._region_worker_filter,
        DataLoader.filter_region_flatten gen r htag]
      have hnil : t.filter (fun u => decide (u = r)) = [] :=
        List.length_eq_zero.1
          (by rw [← List.countP_eq_length_filter]; exact ht)
      rw [hnil]
      rfl
    have hcentral : ((DataLoader._region_worker gen t₀).1).filter
        (DataLoader.sampleFilter (fun s => decide (s.region = r)))
        = ((gen r).1).map Item.sample := by
      rw [DataLoader._region_worker_filter,
        DataLoader.filter_region_flatten gen r htag]
      have hone : t₀.filter (fun u => decide (u = r)) = [r] := by
        have hlen1 : (t₀.filter (fun u => decide (u = r))).length = 1 := by
          rw [← List.countP_eq_length_filter]
          exact ht₀
        rcases List.length_eq_one.1 hlen1 with ⟨a, ha⟩
        have hmem : a ∈ t₀.filter (fun u => decide (u = r)) := by
          rw [ha]
          exact List.mem_cons_self _ _
        have har : a = r := of_decide_eq_true (List.mem_filter.1 hmem).2
        rw [ha, har]
      rw [hone]
      simp
    refine (Interleaving.eq_of_single hfil ?_ ?_).trans hcentral
    · intro l hl
      rcases List.mem_map.1 hl with ⟨w, hw, rfl⟩
      rcases List.mem_map.1 hw with ⟨t, ht, rfl⟩
      exact hside t (h₁ t ht)
    · intro l hl
      rcases List.mem_map.1 hl with ⟨w, hw, rfl⟩
      rcases List.mem_map.1 hw with ⟨t, ht, rfl⟩
      exact hside t (h₂ t ht)
  have hpart1 : (DataLoader._get_samples A.length stream).filter
      (fun s => decide (s.region = r)) = (gen r).1 := by
    rw [hgs, DataLoader.filter_filterMap_sampleOf, hstream_fil,
      List.filterMap_map]
    have h1 : (sampleOf (α := α)) ∘ Item.sample = some := rfl
    rw [h1, List.filterMap_some]
  refine ⟨hpart1, ?_⟩
  have hcomm : ∀ l : List (Sample α),
      (l.filter (fun s => decide (s.region = r))).map Sample.key
      = (l.map Sample.key).filter (fun k => decide (k.1 = r)) := by
    intro l
    exact (@List.filter_map (Sample α) (Region × Nat)
      (fun k => decide (k.1 = r)) Sample.key l).symm
  rw [hcomm, DataLoader._batch_worker_flatten_key batch_size hbs,
    ← hcomm, hpart1]

/-- Claim C7, witness: the single region's one sample survives, alone and in
order, both in the assembler's intake and in the batch concatenation. -/
theorem c7_per_region_order_witness :
    (DataLoader._get_samples 1
        [Item.sample ⟨⟨0, 0, 1⟩, 5, ⟨[1], [5]⟩⟩, Item.stop]).filter
      (fun s => decide (s.region = (⟨0, 0, 1⟩ : Region)))
      = (wGenTag ⟨0, 0, 1⟩).1 ∧
    (((DataLoader._batch_worker_batches 1
        (DataLoader._get_samples 1
          [Item.sample ⟨⟨0, 0, 1⟩, 5, ⟨[1], [5]⟩⟩, Item.stop])).map
            (fun b => b.1)).flatten.filter
      (fun s => decide (s.region = (⟨0, 0, 1⟩ : Region)))).map Sample.key
      = ((wGenTag ⟨0, 0, 1⟩).1).map Sample.key :=
  c7_per_region_order wGenTag [[⟨0, 0, 1⟩]] 1 1
    [Item.sample ⟨⟨0, 0, 1⟩, 5, ⟨[1], [5]⟩⟩, Item.stop] ⟨0, 0, 1⟩ rfl
    (by decide)
    (interleaving_self [Item.sample ⟨⟨0, 0, 1⟩, 5, ⟨[1], [5]⟩⟩, Item.stop])
    (by
      intro r' s hs
      rcases List.mem_singleton.1 hs with rfl
      rfl)
    (by decide)

end MedakaPrediction
